import Mathlib

/-!
Verification of the go-check-color quantization core.

Shallow embedding of the color-quantization core of the repository:
`src/src/palette.go` (quickselect-based, suffix `_src` or no suffix) and
`src/internal/palette/palette.go` (sort-based, suffix `_internal`).

Conventions of the embedding:
* Go slices become `List`; in-place mutation becomes explicit value passing,
  and functions that mutate a caller-visible buffer also return the final
  contents of that buffer.
* Go `uint8` channel values become `Nat`; a Go conversion `uint8(x)` of a
  non-negative integer is `x % 256` (`u8` below).
* Go `int` index/range arithmetic becomes `Int` where a value can go
  negative (loop indices `i`, `j`, `lo`, `hi`, ranges initialised to `-1`),
  `Nat` otherwise; no Go `int` here can overflow 64 bits.
* Code that can panic (out-of-range indexing) returns `Option`; `none`
  models the panic.  Unbounded `for` loops take an explicit fuel argument,
  `none` on exhaustion; fuel bounds are chosen from the surrounding call and
  sufficiency is proved where a claim needs it.
-/

namespace CheckColor

/-- `RGB` from palette.go: three 8-bit channels.  Channels are modelled as
`Nat`; every value a Go program can build satisfies `ValidRGB` below. -/
structure RGB where
  R : Nat
  G : Nat
  B : Nat
deriving DecidableEq, Repr

instance : Inhabited RGB := ⟨⟨0, 0, 0⟩⟩

/-- The values representable by the Go `RGB` struct (three `uint8`). -/
def ValidRGB (c : RGB) : Prop := c.R < 256 ∧ c.G < 256 ∧ c.B < 256

instance (c : RGB) : Decidable (ValidRGB c) := by
  unfold ValidRGB; infer_instance

/-- Go conversion `uint8(x)` of a non-negative integer. -/
def u8 (n : Nat) : Nat := n % 256

/-- `channelValue` from src/src/palette.go: switch on the channel selector,
`default` giving B. -/
def channelValue (c : RGB) (ch : Nat) : Nat :=
  match ch with
  | 0 => c.R
  | 1 => c.G
  | _ => c.B

/-- `channelRange` from palette.go (both files are identical): single pass
updating `minv` (init 255) and `maxv` (init 0), returning `maxv - minv` as a
Go `int`; 0 for an empty set. -/
def channelRange (pxs : List RGB) (ch : Nat) : Int :=
  if pxs = [] then 0
  else
    let mm := pxs.foldl
      (fun mm p =>
        let v : Int := channelValue p ch
        (min mm.1 v, max mm.2 v))
      ((255 : Int), (0 : Int))
    mm.2 - mm.1

/-! ## Selector: Hoare-partition quickselect

`partitionByChannel` (on `[]RGB` keyed by a channel) and `partitionUint8`
(on `[]uint8`) in src/src/palette.go are textually identical up to the key
function, as are the narrowing loops of `nthElementByChannel` and
`quickSelectUint8`; they are embedded once, generically in a key
`key : α → Nat`. -/

/-- Swap two positions of a list (Go `a[i], a[j] = a[j], a[i]`). -/
def swapL [Inhabited α] (a : List α) (i j : Nat) : List α :=
  (a.set i (a.getD j default)).set j (a.getD i default)

/-- Structural-recursion core of `scanUp`: the counter only bounds the
number of steps (callers pass `a.length - i + 1`, which can never run out
before the in-bounds test fails). -/
def scanUpAux [Inhabited α] (key : α → Nat) (a : List α) (pivot : Nat) :
    Nat → Nat → Option Nat
  | 0, _ => none
  | fuel + 1, i =>
    if i < a.length then
      if key (a.getD i default) < pivot then scanUpAux key a pivot fuel (i + 1)
      else some i
    else none

/-- The pivot-scan `for key(a[i]) < pivot { i++ }`: first index `≥ i` whose
key is not below the pivot.  Reaching the end of the list models the Go
out-of-range panic as `none`. -/
def scanUp [Inhabited α] (key : α → Nat) (a : List α) (pivot : Nat) (i : Nat) :
    Option Nat :=
  scanUpAux key a pivot (a.length - i + 1) i

/-- The pivot-scan `for key(a[j]) > pivot { j-- }`: first index `≤ j`
(descending) whose key is not above the pivot.  Dropping below index 0
models the Go out-of-range panic as `none`.  (Callers only invoke it with
`j` inside the list, so the read `a.getD j` matches the Go read `a[j]`.) -/
def scanDown [Inhabited α] (key : α → Nat) (a : List α) (pivot : Nat) :
    Nat → Option Nat
  | 0 => if key (a.getD 0 default) > pivot then none else some 0
  | j + 1 =>
    if key (a.getD (j + 1) default) > pivot then scanDown key a pivot j
    else some (j + 1)

/-- The partition loop body of `partitionByChannel` / `partitionUint8`:
`for i <= j { scans; if i <= j { swap; i++; j-- } }`, returning the final
array and the final `i`.  `i`/`j` are Go `int`s (`j` can reach `-1`). -/
def partLoop [Inhabited α] (key : α → Nat) (pivot : Nat) :
    Nat → List α → Int → Int → Option (List α × Int)
  | 0, _, _, _ => none
  | fuel + 1, a, i, j =>
    if i ≤ j then
      match scanUp key a pivot i.toNat, scanDown key a pivot j.toNat with
      | some i2, some j2 =>
        if (i2 : Int) ≤ (j2 : Int) then
          partLoop key pivot fuel (swapL a i2 j2) ((i2 : Int) + 1) ((j2 : Int) - 1)
        else some (a, (i2 : Int))
      | _, _ => none
    else some (a, i)

/-- `partitionByChannel` / `partitionUint8` from src/src/palette.go:
pivot is the key of the middle element; runs the scan/swap loop and returns
`i - 1`.  The loop performs at most `hi - lo + 1` swaps, so fuel
`hi + 2 - lo` never runs out (proved in `partLoop_total`). -/
def hoarePartition [Inhabited α] (key : α → Nat) (a : List α) (lo hi : Nat) :
    Option (List α × Int) :=
  let pivot := key (a.getD ((lo + hi) / 2) default)
  match partLoop key pivot (hi + 2 - lo) a (lo : Int) (hi : Int) with
  | some (a2, i) => some (a2, i - 1)
  | none => none

/-- The narrowing loop shared by `nthElementByChannel` and
`quickSelectUint8`: `for lo < hi { p := partition(...); if k == p return
a[k] ... }`; returns the final array together with the value the Go code
reads on exit (`arr[k]` on the early return, `arr[lo]` after the loop;
both reads are in range in every reachable state). -/
def qsLoop [Inhabited α] (key : α → Nat) :
    Nat → List α → Int → Int → Int → Option (List α × α)
  | 0, _, _, _, _ => none
  | fuel + 1, a, k, lo, hi =>
    if lo < hi then
      match hoarePartition key a lo.toNat hi.toNat with
      | some (a2, p) =>
        if k = p then some (a2, a2.getD k.toNat default)
        else if k < p then qsLoop key fuel a2 k lo (p - 1)
        else qsLoop key fuel a2 k (p + 1) hi
      | none => none
    else some (a, a.getD lo.toNat default)

/-- `quickSelectUint8` from src/src/palette.go.  On the empty array the Go
code reaches `return arr[lo]` with `lo = 0` and panics (`none` here).  The
result is the final (reordered) array together with the returned value. -/
def quickSelectUint8 (arr : List Nat) (k : Int) : Option (List Nat × Nat) :=
  if arr.isEmpty then none
  else
    let k2 : Int := if (arr.length : Int) ≤ k then (arr.length : Int) - 1 else k
    qsLoop id (arr.length + 1) arr k2 0 ((arr.length : Int) - 1)

/-- `nthElementByChannel` from src/src/palette.go: returns immediately when
`n <= 0 || n >= len(a)`, otherwise runs the narrowing loop keyed by channel
`ch`.  The result is the final contents of the (mutated) buffer. -/
def nthElementByChannel (a : List RGB) (n : Int) (ch : Nat) : Option (List RGB) :=
  if n ≤ 0 ∨ (a.length : Int) ≤ n then some a
  else (qsLoop (channelValue · ch) (a.length + 1) a n 0 ((a.length : Int) - 1)).map
    Prod.fst

/-! ## BoxSplitter -/

/-- Dominant-channel choice shared by both `medianCutSplit`s:
`dominant := 0; if ranges[1] > ranges[dominant] { dominant = 1 };
if ranges[2] > ranges[dominant] { dominant = 2 }`. -/
def dominantChannel (pxs : List RGB) : Nat :=
  let r0 := channelRange pxs 0
  let r1 := channelRange pxs 1
  let r2 := channelRange pxs 2
  let d1 := if r1 > r0 then 1 else 0
  if r2 > (if d1 = 1 then r1 else r0) then 2 else d1

/-- `medianCutSplit` from src/src/palette.go: quickselect the median of the
dominant channel in place, then copy out `pxs[:mid]` and `pxs[mid:]`.
Returns `(left, right, final contents of the mutated input buffer)`. -/
def medianCutSplit (pxs : List RGB) : Option (List RGB × List RGB × List RGB) :=
  let mid := pxs.length / 2
  match nthElementByChannel pxs (mid : Int) (dominantChannel pxs) with
  | some a2 => some (a2.take mid, a2.drop mid, a2)
  | none => none

/-- Insertion step of the sort used to model Go's `sort.Slice`/`sort.Ints`. -/
def insertLe (le : α → α → Bool) (x : α) : List α → List α
  | [] => [x]
  | y :: t => if le x y then x :: y :: t else y :: insertLe le x t

/-- Insertion sort modelling Go's `sort.Slice`/`sort.Ints`.  (`sort.Ints`
fully sorts, and a fully sorted list of numbers is unique, so any sorting
algorithm is a faithful model; for `sort.Slice` on a strict-weak order the
order of equal keys is unspecified in Go and this model fixes one.) -/
def sortBy (le : α → α → Bool) (l : List α) : List α := l.foldr (insertLe le) []

/-- `medianCutSplit` from src/internal/palette/palette.go: full in-place
sort by the dominant channel, then split at `mid` into two copies.
Returns `(left, right, final contents of the sorted input buffer)`. -/
def medianCutSplit_internal (pxs : List RGB) : List RGB × List RGB × List RGB :=
  let dom := dominantChannel pxs
  let sorted := sortBy (fun a b => channelValue a dom ≤ channelValue b dom) pxs
  let mid := pxs.length / 2
  (sorted.take mid, sorted.drop mid, sorted)

/-! ## Box reduction -/

/-- Channel sums (Go accumulates into `int`/`int64`; non-negative here). -/
def sumR (pxs : List RGB) : Nat := pxs.foldl (fun s p => s + p.R) 0

def sumG (pxs : List RGB) : Nat := pxs.foldl (fun s p => s + p.G) 0

def sumB (pxs : List RGB) : Nat := pxs.foldl (fun s p => s + p.B) 0

/-- `averageColor` from palette.go (both files are identical): per-channel
mean of the samples.  Go divides with `float64` and rounds with
`math.Round` (half away from zero); for the non-negative integer sums and
counts that occur here the rounded quotient equals the exact rational mean
rounded half away from zero, which is `(2*sum + n) / (2*n)` in integer
division; the model uses that integer form. -/
def averageColor (pxs : List RGB) : RGB :=
  if pxs = [] then ⟨0, 0, 0⟩
  else
    let n := pxs.length
    ⟨u8 ((2 * sumR pxs + n) / (2 * n)),
     u8 ((2 * sumG pxs + n) / (2 * n)),
     u8 ((2 * sumB pxs + n) / (2 * n))⟩

/-- `nthElementR`/`G`/`B` from src/src/palette.go: copy the channel into a
scratch buffer and quickselect rank `k` there (the scratch copy is
discarded, so the samples are not mutated). -/
def nthElementCh (proj : RGB → Nat) (pxs : List RGB) (k : Int) : Option Nat :=
  (quickSelectUint8 (pxs.map proj) k).map Prod.snd

/-- `medianColor` from src/src/palette.go: black for an empty box; the
truncated per-channel mean for boxes of at most 3 samples; otherwise
per-channel quickselect — the middle rank for odd sizes, the truncated
average of ranks `mid-1` and `mid` for even sizes. -/
def medianColor (pxs : List RGB) : Option RGB :=
  if pxs = [] then some ⟨0, 0, 0⟩
  else if pxs.length ≤ 3 then
    let n := pxs.length
    some ⟨u8 (sumR pxs / n), u8 (sumG pxs / n), u8 (sumB pxs / n)⟩
  else
    let n := pxs.length
    let mid := n / 2
    if n % 2 = 1 then
      match nthElementCh RGB.R pxs mid, nthElementCh RGB.G pxs mid,
          nthElementCh RGB.B pxs mid with
      | some r, some g, some b => some ⟨r, g, b⟩
      | _, _, _ => none
    else
      match nthElementCh RGB.R pxs (mid - 1), nthElementCh RGB.R pxs mid,
          nthElementCh RGB.G pxs (mid - 1), nthElementCh RGB.G pxs mid,
          nthElementCh RGB.B pxs (mid - 1), nthElementCh RGB.B pxs mid with
      | some r1, some r2, some g1, some g2, some b1, some b2 =>
        some ⟨u8 ((r1 + r2) / 2), u8 ((g1 + g2) / 2), u8 ((b1 + b2) / 2)⟩
      | _, _, _, _, _, _ => none

/-- `medianColor` from src/internal/palette/palette.go: black for an empty
box; otherwise copy each channel to an `int` slice (values are the
non-negative `uint8` values, kept as `Nat`), `sort.Ints` it, and take the
middle element (odd size) or `math.Round` of the mean of the two middle
elements (even size; the float arithmetic is exact on these small integers
and `math.Round` rounds half away from zero, i.e. `(x + y + 1) / 2`). -/
def medianColor_internal (pxs : List RGB) : RGB :=
  if pxs = [] then ⟨0, 0, 0⟩
  else
    let n := pxs.length
    let rr := sortBy (· ≤ ·) (pxs.map RGB.R)
    let gg := sortBy (· ≤ ·) (pxs.map RGB.G)
    let bb := sortBy (· ≤ ·) (pxs.map RGB.B)
    if n % 2 = 1 then
      ⟨u8 (rr.getD (n / 2) 0), u8 (gg.getD (n / 2) 0), u8 (bb.getD (n / 2) 0)⟩
    else
      ⟨u8 ((rr.getD (n / 2 - 1) 0 + rr.getD (n / 2) 0 + 1) / 2),
       u8 ((gg.getD (n / 2 - 1) 0 + gg.getD (n / 2) 0 + 1) / 2),
       u8 ((bb.getD (n / 2 - 1) 0 + bb.getD (n / 2) 0 + 1) / 2)⟩

/-! ## PaletteBuilder -/

/-- Max of the three channel ranges of a box (`maxRange := r; if g > ...`). -/
def boxMaxRange (pxs : List RGB) : Int :=
  max (max (channelRange pxs 0) (channelRange pxs 1)) (channelRange pxs 2)

/-- Widest-box scan of src/src/palette.go `MedianCutPalette`:
`widestIdx, widestRange := -1, -1`; boxes with ≤ 1 pixel are skipped;
strict `>` keeps the first box on ties.  `none` models `widestIdx == -1`. -/
def findWidestGo (i : Nat) (best : Option Nat) (bestRange : Int) :
    List (List RGB) → Option Nat
  | [] => best
  | bx :: rest =>
    if bx.length ≤ 1 then findWidestGo (i + 1) best bestRange rest
    else
      let m := boxMaxRange bx
      if m > bestRange then findWidestGo (i + 1) (some i) m rest
      else findWidestGo (i + 1) best bestRange rest

/-- Widest-box scan of src/internal/palette/palette.go `MedianCutPalette`:
`widestIdx, widestRange := 0, -1`; no skipping of small boxes. -/
def findWidestGo_internal (i : Nat) (best : Nat) (bestRange : Int) :
    List (List RGB) → Nat
  | [] => best
  | bx :: rest =>
    let m := boxMaxRange bx
    if m > bestRange then findWidestGo_internal (i + 1) i m rest
    else findWidestGo_internal (i + 1) best bestRange rest

/-- The padding loop `for len(result) < k { result = append(result,
result[len(result)-1]) }` of src/src/palette.go (used for both the
`len(pixels) <= k` copy and the final palette): `none` models the Go panic
`result[-1]` when the loop starts from an empty list, and also fuel
exhaustion (callers pass fuel `k`, which suffices since each step grows
the list). -/
def padToLen (k : Nat) : Nat → List RGB → Option (List RGB)
  | 0, res => if res.length < k then none else some res
  | fuel + 1, res =>
    if res.length < k then
      match res.getLast? with
      | none => none
      | some x => padToLen k fuel (res ++ [x])
    else some res

/-- The `for len(boxes) < k` split loop of src/src/palette.go
`MedianCutPalette`, entered here after the first split (see
`MedianCutPalette`): the widest splittable box is replaced by its left
half and the right half is appended.  Fuel `k` suffices since every
iteration grows the box list. -/
def mcLoop : Nat → Nat → List (List RGB) → Option (List (List RGB))
  | 0, _, _ => none
  | fuel + 1, k, boxes =>
    if boxes.length < k then
      match findWidestGo 0 none (-1) boxes with
      | none => some boxes
      | some idx =>
        match medianCutSplit (boxes.getD idx []) with
        | none => none
        | some (l, r, _) => mcLoop fuel k (boxes.set idx l ++ [r])
    else some boxes

/-- Reduction step 3 of src/src/palette.go: one `medianColor` per box. -/
def reduceBoxes : List (List RGB) → Option (List RGB)
  | [] => some []
  | b :: rest =>
    match medianColor b, reduceBoxes rest with
    | some c, some cs => some (c :: cs)
    | _, _ => none

/-- `MedianCutPalette` from src/src/palette.go.  The caller's `pixels`
slice is aliased by the initial box, so the first `medianCutSplit` (which
always happens in the main branch, and is always on box 0, the only box)
reorders the caller's buffer in place; every later split works on copied
halves.  The result is `(palette, final contents of the caller's buffer)`;
`none` models a panic. -/
def MedianCutPalette (pixels : List RGB) (k : Int) : Option (List RGB × List RGB) :=
  if k ≤ 0 then some ([], pixels)
  else if k = 1 then some ([averageColor pixels], pixels)
  else if (pixels.length : Int) ≤ k then
    (padToLen k.toNat k.toNat pixels).map (fun res => (res, pixels))
  else
    match medianCutSplit pixels with
    | none => none
    | some (l, r, mutated) =>
      match mcLoop k.toNat k.toNat [l, r] with
      | none => none
      | some boxes =>
        match reduceBoxes boxes with
        | none => none
        | some palette =>
          (padToLen k.toNat k.toNat palette).map (fun res => (res, mutated))

/-- The split loop of src/internal/palette/palette.go `MedianCutPalette`,
entered here after the first split: the widest box (no size filtering) is
located; if it has ≤ 1 pixel the loop breaks, otherwise the box is
replaced in place by its two sorted halves.  `none` models fuel
exhaustion only (fuel `k` suffices; the loop itself cannot panic). -/
def mcLoop_internal : Nat → Nat → List (List RGB) → Option (List (List RGB))
  | 0, _, _ => none
  | fuel + 1, k, boxes =>
    if boxes.length < k then
      let idx := findWidestGo_internal 0 0 (-1) boxes
      let bx := boxes.getD idx []
      if bx.length ≤ 1 then some boxes
      else
        let (l, r, _) := medianCutSplit_internal bx
        mcLoop_internal fuel k (boxes.take idx ++ [l, r] ++ boxes.drop (idx + 1))
    else some boxes

/-- The padding loop of src/internal/palette/palette.go:
`for len(palette) < k && len(palette) > 0` — repeatedly appends the last
entry, which is the last entry of the original list throughout, so it
equals appending `k - len` copies of it; a no-op on the empty list. -/
def padTo_internal (k : Nat) (palette : List RGB) : List RGB :=
  match palette.getLast? with
  | none => palette
  | some x => palette ++ List.replicate (k - palette.length) x

/-- `MedianCutPalette` from src/internal/palette/palette.go.  As in the
src/src version, the caller's buffer is aliased by the initial box and is
sorted in place by the first split (which happens iff `k > 1` and the
single starting box has ≥ 2 pixels); later splits work on copied halves.
Result: `(palette, final contents of the caller's buffer)`. -/
def MedianCutPalette_internal (pixels : List RGB) (k : Int) :
    Option (List RGB × List RGB) :=
  if k ≤ 0 then some ([], pixels)
  else if 1 < k ∧ 2 ≤ pixels.length then
    match mcLoop_internal k.toNat k.toNat
        [(medianCutSplit_internal pixels).1, (medianCutSplit_internal pixels).2.1] with
    | none => none
    | some boxes =>
      some (padTo_internal k.toNat (boxes.map medianColor_internal),
        (medianCutSplit_internal pixels).2.2)
  else
    some (padTo_internal k.toNat [medianColor_internal pixels], pixels)

/-! ## Classifier -/

/-- `colorDistanceSqInt` from src/src/palette.go: squared Euclidean
distance in Go `int` arithmetic (no overflow for these magnitudes).
src/internal's `colorDistanceSq` computes the same three squares in
`float64`, exactly (inputs are small integers), so it is modelled by the
same integer function. -/
def colorDistanceSqInt (a b : RGB) : Int :=
  let dr : Int := (a.R : Int) - (b.R : Int)
  let dg : Int := (a.G : Int) - (b.G : Int)
  let db : Int := (a.B : Int) - (b.B : Int)
  dr * dr + dg * dg + db * db

/-- The nearest-entry scan of src/src/palette.go `CountOccurrences` from
index 1 on, carrying the running `(bestIdx, best)` and using strict `<`. -/
def bestScan (px : RGB) : List RGB → Nat → Nat → Int → Nat
  | [], _, bi, _ => bi
  | c :: rest, i, bi, best =>
    let d := colorDistanceSqInt px c
    if d < best then bestScan px rest (i + 1) i d
    else bestScan px rest (i + 1) bi best

/-- The per-sample classification of src/src/palette.go `CountOccurrences`:
`bestIdx := 0; best := dist(px, palette[0])`, then scan the rest.  The Go
code never reaches this with an empty palette (guarded at the top); the
`[]` case is arbitrary. -/
def bestIdxOf (px : RGB) : List RGB → Nat
  | [] => 0
  | c0 :: rest => bestScan px rest 1 0 (colorDistanceSqInt px c0)

/-- The nearest-entry scan of src/internal/palette/palette.go
`CountOccurrences`: starts at index 0 with `bestIdx = 0` and
`bestDist = math.MaxFloat64` (modelled as the `none` sentinel: every real
distance compares below it; distances are exact in `float64`). -/
def bestScan_internal (px : RGB) : List RGB → Nat → Nat → Option Int → Nat
  | [], _, bi, _ => bi
  | c :: rest, i, bi, best =>
    let d := colorDistanceSqInt px c
    match best with
    | none => bestScan_internal px rest (i + 1) i (some d)
    | some b =>
      if d < b then bestScan_internal px rest (i + 1) i (some d)
      else bestScan_internal px rest (i + 1) bi best

/-- `bestIdx` of one sample in the internal classifier. -/
def bestIdxOf_internal (px : RGB) (palette : List RGB) : Nat :=
  bestScan_internal px palette 0 0 none

/-- `counts[i]++` (in-range at every reachable call site). -/
def incrAt (cnt : List Nat) (i : Nat) : List Nat := cnt.set i (cnt.getD i 0 + 1)

/-- The sequential classification loop of src/src/palette.go
`CountOccurrences` over a block of samples: start from an all-zero
histogram of the palette's length and bump the nearest entry per sample. -/
def classifyChunk (palette pixels : List RGB) : List Nat :=
  pixels.foldl (fun cnt px => incrAt cnt (bestIdxOf px palette))
    (List.replicate palette.length 0)

/-- The chunk decomposition of src/src/palette.go `CountOccurrences`:
`for i := 0; i < len(pixels); i += step` with `j = min(i+step, len)`,
yielding the slices `pixels[i:j]`.  `step = 0` cannot occur (the guard
keeps the function total). -/
def chunksOf (step : Nat) (l : List RGB) : List (List RGB) :=
  if l = [] then []
  else if step = 0 then [l]
  else l.take step :: chunksOf step (l.drop step)
termination_by l.length
decreasing_by
  simp only [List.length_drop]
  rename_i h h2
  have : 0 < l.length := List.length_pos.mpr h
  omega

/-- Element-wise merge of partial histograms
(`for i := range counts { counts[i] += p[i] }`; all operands have the
palette's length at every call site, so `zipWith` agrees with the Go loop). -/
def mergeCounts (acc p : List Nat) : List Nat := acc.zipWith (· + ·) p

/-- `CountOccurrences` from src/src/palette.go.  `workers` is the value of
`runtime.GOMAXPROCS(0)`, injected as a parameter (it only selects the
execution strategy).  Small inputs run single-threaded; large inputs are
cut into `step`-sized contiguous chunks, classified independently, and the
partial histograms are merged by element-wise addition. -/
def CountOccurrences (workers : Nat) (pixels palette : List RGB) : List Nat :=
  if palette.length = 0 ∨ pixels.length = 0 then List.replicate palette.length 0
  else if workers < 2 ∨ pixels.length < 5000 then classifyChunk palette pixels
  else
    let step := (pixels.length + workers - 1) / workers
    ((chunksOf step pixels).map (classifyChunk palette)).foldl mergeCounts
      (List.replicate palette.length 0)

/-- `CountOccurrences` from src/internal/palette/palette.go: no emptiness
guards; for every sample the loop computes `bestIdx` (0 when the palette
is empty, since no distance beats `MaxFloat64`... in fact `bestIdx`
simply stays 0) and executes `counts[bestIdx]++`, which panics (`none`)
when `counts` is shorter — i.e. whenever the palette is empty and there
is at least one sample. -/
def CountOccurrences_internal (pixels palette : List RGB) : Option (List Nat) :=
  pixels.foldlM
    (fun cnt px =>
      let bi := bestIdxOf_internal px palette
      if bi < cnt.length then some (incrAt cnt bi) else none)
    (List.replicate palette.length 0)

/-! ## Specification-side definitions

Used only on the specification side of refinement comparisons (claims C7
and C8); the corresponding source-side definitions are `medianColor` /
`medianColor_internal` and `averageColor`. -/

/-- Modelled from the spec (§4.4 step 3): the per-channel median — "for
odd-count boxes, the true median value; for even-count boxes, the rounded
average of the two middle values" of that channel's sorted values
(rounding half away from zero, i.e. `(x + y + 1) / 2` on naturals). -/
def specMedianChannel (vals : List Nat) : Nat :=
  let s := sortBy (· ≤ ·) vals
  let n := vals.length
  if n % 2 = 1 then s.getD (n / 2) 0
  else (s.getD (n / 2 - 1) 0 + s.getD (n / 2) 0 + 1) / 2

/-- Modelled from the spec: the per-channel median color. -/
def specMedianColor (pxs : List RGB) : RGB :=
  ⟨specMedianChannel (pxs.map RGB.R), specMedianChannel (pxs.map RGB.G),
   specMedianChannel (pxs.map RGB.B)⟩

/-- Modelled from the spec (§4.4 step 1): "a single palette entry equal to
the arithmetic mean (rounded to nearest integer, half-away-from-zero) of
all sample channels"; for non-negative naturals that is
`(2*sum + n) / (2*n)`. -/
def specMeanColor (pxs : List RGB) : RGB :=
  let n := pxs.length
  ⟨(2 * sumR pxs + n) / (2 * n),
   (2 * sumG pxs + n) / (2 * n),
   (2 * sumB pxs + n) / (2 * n)⟩

/-! ## Auxiliary lemmas: getD / set / swap -/

theorem getD_set_self [Inhabited α] (l : List α) (n : Nat) (x : α)
    (h : n < l.length) : (l.set n x).getD n default = x := by
  simp [List.getD_eq_getElem?_getD, List.getElem?_set_self, h]

theorem getD_set_ne [Inhabited α] (l : List α) (n m : Nat) (x : α)
    (h : m ≠ n) : (l.set n x).getD m default = l.getD m default := by
  simp [List.getD_eq_getElem?_getD, List.getElem?_set_ne (Ne.symm h)]

theorem swapL_length [Inhabited α] (a : List α) (i j : Nat) :
    (swapL a i j).length = a.length := by
  simp [swapL]

theorem getD_swapL_right [Inhabited α] (a : List α) (i j : Nat)
    (hj : j < a.length) : (swapL a i j).getD j default = a.getD i default := by
  unfold swapL
  exact getD_set_self _ _ _ (by simpa using hj)

theorem getD_swapL_left [Inhabited α] (a : List α) (i j : Nat)
    (hij : i ≠ j) (hi : i < a.length) :
    (swapL a i j).getD i default = a.getD j default := by
  unfold swapL
  rw [getD_set_ne _ _ _ _ hij]
  exact getD_set_self _ _ _ hi

/-- A list with an element pulled to the front is a permutation of the
list with that position overwritten and the new value in front. -/
theorem getD_cons_set_perm [Inhabited α] :
    ∀ (t : List α) (m : Nat), m < t.length →
      ∀ x, (t.getD m default :: t.set m x).Perm (x :: t)
  | [], m, h, _ => by simp at h
  | y :: s, 0, _, x => by
    simpa using List.Perm.swap x y s
  | y :: s, m + 1, h, x => by
    simp only [List.getD_cons_succ, List.set_cons_succ]
    have h1 : m < s.length := by simpa using h
    exact (List.Perm.swap y _ _).trans
      (((getD_cons_set_perm s m h1 x).cons y).trans (List.Perm.swap x y s))

/-- Swapping two in-range positions permutes the list. -/
theorem swapL_perm [Inhabited α] :
    ∀ (a : List α) (i j : Nat), i < a.length → j < a.length →
      (swapL a i j).Perm a
  | [], _, _, hi, _ => by simp at hi
  | y :: t, 0, 0, _, _ => by
    simp [swapL]
  | y :: t, 0, m + 1, _, hj => by
    have h1 : m < t.length := by simpa using hj
    simp only [swapL, List.getD_cons_zero, List.getD_cons_succ,
      List.set_cons_zero, List.set_cons_succ]
    exact getD_cons_set_perm t m h1 y
  | y :: t, n + 1, 0, hi, _ => by
    have h1 : n < t.length := by simpa using hi
    simp only [swapL, List.getD_cons_zero, List.getD_cons_succ,
      List.set_cons_zero, List.set_cons_succ]
    exact getD_cons_set_perm t n h1 y
  | y :: t, n + 1, m + 1, hi, hj => by
    have h1 : n < t.length := by simpa using hi
    have h2 : m < t.length := by simpa using hj
    simp only [swapL, List.getD_cons_succ, List.set_cons_succ]
    exact (swapL_perm t n m h1 h2).cons y

/-! ## Auxiliary lemmas: insertion sort -/

theorem insertLe_perm (le : α → α → Bool) (x : α) :
    ∀ l : List α, (insertLe le x l).Perm (x :: l)
  | [] => List.Perm.refl _
  | y :: t => by
    unfold insertLe
    by_cases h : le x y
    · simp [h]
    · simp only [h, if_neg, Bool.false_eq_true, not_false_eq_true]
      exact ((insertLe_perm le x t).cons y).trans (List.Perm.swap x y t)

theorem sortBy_perm (le : α → α → Bool) :
    ∀ l : List α, (sortBy le l).Perm l
  | [] => List.Perm.refl _
  | x :: t =>
    (insertLe_perm le x (sortBy le t)).trans ((sortBy_perm le t).cons x)

theorem sortBy_length (le : α → α → Bool) (l : List α) :
    (sortBy le l).length = l.length :=
  (sortBy_perm le l).length_eq

/-! ## Auxiliary lemmas: pivot scans -/

theorem scanUpAux_some [Inhabited α] (key : α → Nat) (a : List α) (pivot : Nat) :
    ∀ (fuel i g : Nat), i ≤ g → g < a.length →
      pivot ≤ key (a.getD g default) → g - i < fuel →
      ∃ i2, scanUpAux key a pivot fuel i = some i2 ∧ i ≤ i2 ∧ i2 ≤ g ∧
        pivot ≤ key (a.getD i2 default)
  | 0, i, g, hig, _, _, hfuel => by omega
  | fuel + 1, i, g, hig, hg, hpk, hfuel => by
    rw [scanUpAux]
    have hi : i < a.length := lt_of_le_of_lt hig hg
    rw [if_pos hi]
    by_cases hk : key (a.getD i default) < pivot
    · rw [if_pos hk]
      have hne : i ≠ g := by
        intro he
        rw [he] at hk
        omega
      obtain ⟨i2, h1, h2, h3, h4⟩ :=
        scanUpAux_some key a pivot fuel (i + 1) g (by omega) hg hpk (by omega)
      exact ⟨i2, h1, by omega, h3, h4⟩
    · rw [if_neg hk]
      exact ⟨i, rfl, Nat.le_refl i, hig, by omega⟩

theorem scanUp_some [Inhabited α] (key : α → Nat) (a : List α) (pivot : Nat)
    (i g : Nat) (hig : i ≤ g) (hg : g < a.length)
    (hpk : pivot ≤ key (a.getD g default)) :
    ∃ i2, scanUp key a pivot i = some i2 ∧ i ≤ i2 ∧ i2 ≤ g ∧
      pivot ≤ key (a.getD i2 default) :=
  scanUpAux_some key a pivot (a.length - i + 1) i g hig hg hpk (by omega)

theorem scanDown_some [Inhabited α] (key : α → Nat) (a : List α) (pivot : Nat) :
    ∀ (j g : Nat), g ≤ j → key (a.getD g default) ≤ pivot →
      ∃ j2, scanDown key a pivot j = some j2 ∧ g ≤ j2 ∧ j2 ≤ j ∧
        key (a.getD j2 default) ≤ pivot
  | 0, g, hgj, hpk => by
    have hg0 : g = 0 := by omega
    subst hg0
    rw [scanDown]
    rw [if_neg (by omega)]
    exact ⟨0, rfl, Nat.le_refl 0, Nat.le_refl 0, hpk⟩
  | j + 1, g, hgj, hpk => by
    rw [scanDown]
    by_cases hk : key (a.getD (j + 1) default) > pivot
    · rw [if_pos hk]
      have hne : j + 1 ≠ g := by
        intro he
        rw [he] at hk
        omega
      obtain ⟨j2, h1, h2, h3, h4⟩ :=
        scanDown_some key a pivot j g (by omega) hpk
      exact ⟨j2, h1, h2, by omega, h4⟩
    · rw [if_neg hk]
      exact ⟨j + 1, rfl, hgj, Nat.le_refl _, by omega⟩

/-- `scanUpAux` only returns indices inside the list. -/
theorem scanUpAux_lt_length [Inhabited α] (key : α → Nat) (a : List α)
    (pivot : Nat) :
    ∀ (fuel i i2 : Nat), scanUpAux key a pivot fuel i = some i2 →
      i2 < a.length
  | 0, _, _, h => by cases h
  | fuel + 1, i, i2, h => by
    rw [scanUpAux] at h
    by_cases hi : i < a.length
    · rw [if_pos hi] at h
      by_cases hk : key (a.getD i default) < pivot
      · rw [if_pos hk] at h
        exact scanUpAux_lt_length key a pivot fuel (i + 1) i2 h
      · rw [if_neg hk] at h
        cases h
        exact hi
    · rw [if_neg hi] at h
      cases h

theorem scanUp_lt_length [Inhabited α] (key : α → Nat) (a : List α)
    (pivot : Nat) (i i2 : Nat) (h : scanUp key a pivot i = some i2) :
    i2 < a.length :=
  scanUpAux_lt_length key a pivot (a.length - i + 1) i i2 h

/-- `scanDown` only returns indices at or below its starting point. -/
theorem scanDown_le_start [Inhabited α] (key : α → Nat) (a : List α)
    (pivot : Nat) : ∀ (j j2 : Nat), scanDown key a pivot j = some j2 → j2 ≤ j
  | 0, j2, h => by
    rw [scanDown] at h
    by_cases hk : key (a.getD 0 default) > pivot
    · rw [if_pos hk] at h
      cases h
    · rw [if_neg hk] at h
      cases h
      exact Nat.le_refl 0
  | j + 1, j2, h => by
    rw [scanDown] at h
    by_cases hk : key (a.getD (j + 1) default) > pivot
    · rw [if_pos hk] at h
      have := scanDown_le_start key a pivot j j2 h
      omega
    · rw [if_neg hk] at h
      cases h
      exact Nat.le_refl _

/-! ## Auxiliary lemmas: the partition loop -/

/-- Whenever the partition loop succeeds, it permutes the buffer, keeps its
length, and its final `i` lies in `[0, length]`. -/
theorem partLoop_perm [Inhabited α] (key : α → Nat) (pivot : Nat) :
    ∀ (fuel : Nat) (a : List α) (i j : Int) (a2 : List α) (i2 : Int),
      0 ≤ i → i ≤ (a.length : Int) → j < (a.length : Int) →
      partLoop key pivot fuel a i j = some (a2, i2) →
      a2.Perm a ∧ a2.length = a.length ∧ 0 ≤ i2 ∧ i2 ≤ (a.length : Int)
  | 0, _, _, _, _, _, _, _, _, h => by cases h
  | fuel + 1, a, i, j, a2, i2, h0, hil, hjl, h => by
    rw [partLoop] at h
    by_cases hij : i ≤ j
    · rw [if_pos hij] at h
      cases hsu : scanUp key a pivot i.toNat with
      | none => simp [hsu] at h
      | some iu =>
        cases hsd : scanDown key a pivot j.toNat with
        | none => simp [hsu, hsd] at h
        | some jd =>
          simp only [hsu, hsd] at h
          have hiu : iu < a.length := scanUp_lt_length key a pivot _ _ hsu
          have hjd : jd ≤ j.toNat := scanDown_le_start key a pivot _ _ hsd
          have hjd' : jd < a.length := by omega
          by_cases hsw : (iu : Int) ≤ (jd : Int)
          · rw [if_pos hsw] at h
            obtain ⟨hperm, hlen, hb1, hb2⟩ :=
              partLoop_perm key pivot fuel (swapL a iu jd) ((iu : Int) + 1)
                ((jd : Int) - 1) a2 i2 (by omega)
                (by rw [swapL_length]; omega)
                (by rw [swapL_length]; omega) h
            rw [swapL_length] at hlen hb2
            exact ⟨hperm.trans (swapL_perm a iu jd hiu hjd'), hlen, hb1, hb2⟩
          · rw [if_neg hsw] at h
            simp only [Option.some.injEq, Prod.mk.injEq] at h
            obtain ⟨h1, h2⟩ := h
            subst h1; subst h2
            exact ⟨List.Perm.refl a, rfl, by omega, by omega⟩
    · rw [if_neg hij] at h
      simp only [Option.some.injEq, Prod.mk.injEq] at h
      obtain ⟨h1, h2⟩ := h
      subst h1; subst h2
      exact ⟨List.Perm.refl a, rfl, h0, hil⟩

/-- The main partition-loop invariant: starting inside the window
`[lo, hi]` with a not-below-pivot guard ahead of `i` and a not-above-pivot
guard behind `j`, the loop succeeds with fuel `hi + 2 - i` and its final
`i` lies in `[lo + 1, hi + 1]` — so `partition` returns `i - 1 ∈ [lo, hi]`
and the quickselect window always shrinks. -/
theorem partLoop_total [Inhabited α] (key : α → Nat) (pivot : Nat) (lo hi : Nat) :
    ∀ (fuel : Nat) (a : List α) (i j : Int),
      (lo : Int) ≤ i → j ≤ (hi : Int) → hi < a.length →
      i ≤ (hi : Int) + 1 → (hi : Int) + 2 - i ≤ (fuel : Int) →
      (i ≤ j →
        (∃ g : Nat, i ≤ (g : Int) ∧ g ≤ hi ∧ pivot ≤ key (a.getD g default)) ∧
        (∃ g : Nat, lo ≤ g ∧ (g : Int) ≤ j ∧ key (a.getD g default) ≤ pivot)) →
      ((lo : Int) + 1 ≤ i ∨ i ≤ j) →
      ∃ a2 i2, partLoop key pivot fuel a i j = some (a2, i2) ∧
        (lo : Int) + 1 ≤ i2 ∧ i2 ≤ (hi : Int) + 1 ∧ a2.length = a.length
  | 0, a, i, j, hloi, hjhi, hhia, hihi, hfuel, _, _ => by omega
  | fuel + 1, a, i, j, hloi, hjhi, hhia, hihi, hfuel, hguard, hlast => by
    rw [partLoop]
    by_cases hij : i ≤ j
    · rw [if_pos hij]
      obtain ⟨⟨g1, hg1i, hg1hi, hg1key⟩, ⟨g2, hg2lo, hg2j, hg2key⟩⟩ := hguard hij
      obtain ⟨iu, hsu, hiu1, hiu2, hiukey⟩ :=
        scanUp_some key a pivot i.toNat g1 (by omega) (by omega) hg1key
      obtain ⟨jd, hsd, hjd1, hjd2, hjdkey⟩ :=
        scanDown_some key a pivot j.toNat g2 (by omega) hg2key
      simp only [hsu, hsd]
      by_cases hsw : (iu : Int) ≤ (jd : Int)
      · rw [if_pos hsw]
        have hjdlen : jd < a.length := by omega
        have hiulen : iu < a.length := by omega
        by_cases hnext : (iu : Int) + 1 ≤ (jd : Int) - 1
        · -- the next iteration still runs: swapped guards maintain it
          have hne : iu ≠ jd := by omega
          obtain ⟨a2, i2, hrec, hc1, hc2, hc3⟩ :=
            partLoop_total key pivot lo hi fuel (swapL a iu jd)
              ((iu : Int) + 1) ((jd : Int) - 1)
              (by omega) (by omega) (by rw [swapL_length]; omega)
              (by omega) (by omega)
              (fun _ => ⟨⟨jd, by omega, by omega, by
                  rw [getD_swapL_right a iu jd hjdlen]; exact hiukey⟩,
                ⟨iu, by omega, by omega, by
                  rw [getD_swapL_left a iu jd hne hiulen]; exact hjdkey⟩⟩)
              (Or.inl (by omega))
          rw [swapL_length] at hc3
          exact ⟨a2, i2, hrec, hc1, hc2, hc3⟩
        · -- the recursive call exits at once (its `i > j`)
          obtain ⟨a2, i2, hrec, hc1, hc2, hc3⟩ :=
            partLoop_total key pivot lo hi fuel (swapL a iu jd)
              ((iu : Int) + 1) ((jd : Int) - 1)
              (by omega) (by omega) (by rw [swapL_length]; omega)
              (by omega) (by omega)
              (fun hcon => absurd hcon hnext)
              (Or.inl (by omega))
          rw [swapL_length] at hc3
          exact ⟨a2, i2, hrec, hc1, hc2, hc3⟩
      · rw [if_neg hsw]
        exact ⟨a, iu, rfl, by omega, by omega, rfl⟩
    · rw [if_neg hij]
      exact ⟨a, i, rfl, by omega, by omega, rfl⟩

/-- `hoarePartition` succeeds on any window `lo < hi` inside the buffer and
returns an index inside the window, permuting the buffer. -/
theorem hoarePartition_total [Inhabited α] (key : α → Nat) (a : List α)
    (lo hi : Nat) (hlh : lo < hi) (hhi : hi < a.length) :
    ∃ a2 p, hoarePartition key a lo hi = some (a2, p) ∧
      (lo : Int) ≤ p ∧ p ≤ (hi : Int) ∧ a2.length = a.length ∧ a2.Perm a := by
  unfold hoarePartition
  have hmid1 : lo ≤ (lo + hi) / 2 := by omega
  have hmid2 : (lo + hi) / 2 ≤ hi := by omega
  obtain ⟨a2, i2, hrec, hc1, hc2, hc3⟩ :=
    partLoop_total key (key (a.getD ((lo + hi) / 2) default)) lo hi
      (hi + 2 - lo) a (lo : Int) (hi : Int)
      (by omega) (by omega) hhi (by omega) (by omega)
      (fun _ => ⟨⟨(lo + hi) / 2, by omega, hmid2, Nat.le_refl _⟩,
        ⟨(lo + hi) / 2, hmid1, by omega, Nat.le_refl _⟩⟩)
      (Or.inr (by omega))
  obtain ⟨hperm, _, _, _⟩ :=
    partLoop_perm key _ (hi + 2 - lo) a (lo : Int) (hi : Int) a2 i2
      (by omega) (by omega) (by omega) hrec
  simp only [hrec]
  exact ⟨a2, i2 - 1, rfl, by omega, by omega, hc3, hperm⟩

/-- The quickselect narrowing loop succeeds whenever the window sits inside
the buffer and the fuel exceeds the window size, and it permutes the
buffer. -/
theorem qsLoop_total [Inhabited α] (key : α → Nat) :
    ∀ (fuel : Nat) (a : List α) (k lo hi : Int),
      0 ≤ lo → hi < (a.length : Int) → 1 ≤ fuel → hi - lo < (fuel : Int) →
      ∃ a2 v, qsLoop key fuel a k lo hi = some (a2, v) ∧
        a2.Perm a ∧ a2.length = a.length
  | 0, _, _, _, _, _, _, hf, _ => by omega
  | fuel + 1, a, k, lo, hi, hlo, hhi, _, hfuel => by
    rw [qsLoop]
    by_cases hlh : lo < hi
    · rw [if_pos hlh]
      obtain ⟨a2, p, hpart, hp1, hp2, hlen, hperm⟩ :=
        hoarePartition_total key a lo.toNat hi.toNat (by omega) (by omega)
      simp only [hpart]
      have hp1' : lo ≤ p := by omega
      have hp2' : p ≤ hi := by omega
      by_cases hkp : k = p
      · rw [if_pos hkp]
        exact ⟨a2, _, rfl, hperm, hlen⟩
      · rw [if_neg hkp]
        by_cases hklt : k < p
        · rw [if_pos hklt]
          obtain ⟨a3, v, hrec, hperm2, hlen2⟩ :=
            qsLoop_total key fuel a2 k lo (p - 1) hlo (by omega)
              (by omega) (by omega)
          exact ⟨a3, v, hrec, hperm2.trans hperm, by omega⟩
        · rw [if_neg hklt]
          obtain ⟨a3, v, hrec, hperm2, hlen2⟩ :=
            qsLoop_total key fuel a2 k (p + 1) hi (by omega) (by omega)
              (by omega) (by omega)
          exact ⟨a3, v, hrec, hperm2.trans hperm, by omega⟩
    · rw [if_neg hlh]
      exact ⟨a, _, rfl, List.Perm.refl a, rfl⟩

/-- `quickSelectUint8` terminates (returns `some`) on every non-empty
buffer and every rank, and the final buffer is a permutation. -/
theorem quickSelectUint8_total (arr : List Nat) (k : Int) (h : arr ≠ []) :
    ∃ a2 v, quickSelectUint8 arr k = some (a2, v) ∧ a2.Perm arr := by
  unfold quickSelectUint8
  rw [if_neg (by simpa [List.isEmpty_iff] using h)]
  have hlen : 0 < arr.length := List.length_pos.mpr h
  obtain ⟨a2, v, hrec, hperm, _⟩ :=
    qsLoop_total id (arr.length + 1) arr
      (if (arr.length : Int) ≤ k then (arr.length : Int) - 1 else k)
      0 ((arr.length : Int) - 1) (by omega) (by omega) (by omega) (by omega)
  exact ⟨a2, v, hrec, hperm⟩

/-- `nthElementByChannel` terminates on every input, and the final buffer
is a permutation of the input buffer. -/
theorem nthElementByChannel_total (a : List RGB) (n : Int) (ch : Nat) :
    ∃ a2, nthElementByChannel a n ch = some a2 ∧ a2.Perm a := by
  unfold nthElementByChannel
  by_cases hg : n ≤ 0 ∨ (a.length : Int) ≤ n
  · rw [if_pos hg]
    exact ⟨a, rfl, List.Perm.refl a⟩
  · rw [if_neg hg]
    push_neg at hg
    obtain ⟨a2, v, hrec, hperm, _⟩ :=
      qsLoop_total (channelValue · ch) (a.length + 1) a n 0
        ((a.length : Int) - 1) (by omega) (by omega) (by omega) (by omega)
    rw [hrec]
    exact ⟨a2, rfl, hperm⟩

/-- `medianCutSplit` succeeds on every input and the final contents of the
mutated buffer are a permutation of the original. -/
theorem medianCutSplit_total (pxs : List RGB) :
    ∃ l r m, medianCutSplit pxs = some (l, r, m) ∧ m.Perm pxs := by
  unfold medianCutSplit
  obtain ⟨a2, hrec, hperm⟩ :=
    nthElementByChannel_total pxs ((pxs.length / 2 : Nat) : Int)
      (dominantChannel pxs)
  simp only [hrec]
  exact ⟨_, _, a2, rfl, hperm⟩

/-! ## Auxiliary lemmas: histograms -/

theorem length_incrAt (cnt : List Nat) (i : Nat) :
    (incrAt cnt i).length = cnt.length := by
  simp [incrAt]

theorem sum_incrAt : ∀ (cnt : List Nat) (i : Nat), i < cnt.length →
    (incrAt cnt i).sum = cnt.sum + 1
  | [], i, h => by simp at h
  | x :: t, 0, _ => by
    simp only [incrAt, List.getD_cons_zero, List.set_cons_zero, List.sum_cons]
    omega
  | x :: t, n + 1, h => by
    simp only [incrAt, List.getD_cons_succ, List.set_cons_succ, List.sum_cons]
    have := sum_incrAt t n (by simpa using h)
    simp only [incrAt] at this
    omega

theorem mergeCounts_length (a b : List Nat) :
    (mergeCounts a b).length = min a.length b.length := by
  simp [mergeCounts]

theorem mergeCounts_zeros_right : ∀ a : List Nat,
    mergeCounts a (List.replicate a.length 0) = a
  | [] => rfl
  | x :: t => by
    simp only [mergeCounts, List.length_cons, List.replicate_succ,
      List.zipWith_cons_cons]
    have := mergeCounts_zeros_right t
    simp only [mergeCounts] at this
    rw [this]
    simp

theorem mergeCounts_zeros_left : ∀ b : List Nat,
    mergeCounts (List.replicate b.length 0) b = b
  | [] => rfl
  | y :: s => by
    simp only [mergeCounts, List.length_cons, List.replicate_succ,
      List.zipWith_cons_cons]
    have := mergeCounts_zeros_left s
    simp only [mergeCounts] at this
    rw [this]
    simp

theorem mergeCounts_incr_left : ∀ (a b : List Nat) (i : Nat),
    mergeCounts (incrAt a i) b = incrAt (mergeCounts a b) i
  | [], b, i => by simp [incrAt, mergeCounts]
  | x :: t, [], i => by
    simp [incrAt, mergeCounts]
  | x :: t, y :: s, 0 => by
    simp only [incrAt, mergeCounts, List.getD_cons_zero, List.set_cons_zero,
      List.zipWith_cons_cons]
    have hx : x + 1 + y = x + y + 1 := by omega
    rw [hx]
  | x :: t, y :: s, n + 1 => by
    simp only [incrAt, mergeCounts, List.getD_cons_succ, List.set_cons_succ,
      List.zipWith_cons_cons]
    have := mergeCounts_incr_left t s n
    simp only [incrAt, mergeCounts] at this
    rw [this]

theorem mergeCounts_incr_right : ∀ (a b : List Nat) (i : Nat),
    mergeCounts a (incrAt b i) = incrAt (mergeCounts a b) i
  | [], b, i => by simp [incrAt, mergeCounts]
  | x :: t, [], i => by simp [incrAt, mergeCounts]
  | x :: t, y :: s, 0 => by
    simp only [incrAt, mergeCounts, List.getD_cons_zero, List.set_cons_zero,
      List.zipWith_cons_cons]
    have hx : x + (y + 1) = x + y + 1 := by omega
    rw [hx]
  | x :: t, y :: s, n + 1 => by
    simp only [incrAt, mergeCounts, List.getD_cons_succ, List.set_cons_succ,
      List.zipWith_cons_cons]
    have := mergeCounts_incr_right t s n
    simp only [incrAt, mergeCounts] at this
    rw [this]

/-! ## Auxiliary lemmas: the classifier -/

theorem bestScan_lt (px : RGB) :
    ∀ (rest : List RGB) (i bi : Nat) (best : Int), bi < i →
      bestScan px rest i bi best < i + rest.length
  | [], _, _, _, h => by simpa [bestScan] using h
  | c :: rest, i, bi, best, h => by
    simp only [bestScan]
    by_cases hd : colorDistanceSqInt px c < best
    · rw [if_pos hd]
      have := bestScan_lt px rest (i + 1) i (colorDistanceSqInt px c) (by omega)
      simp only [List.length_cons]
      omega
    · rw [if_neg hd]
      have := bestScan_lt px rest (i + 1) bi best (by omega)
      simp only [List.length_cons]
      omega

/-- The scan keeps the running minimum-distance index and the lowest-index
tie-break; full argmin specification. -/
theorem bestScan_spec (px : RGB) (palette : List RGB) :
    ∀ (rest : List RGB) (i bi : Nat) (best : Int),
      palette.drop i = rest → i ≤ palette.length → bi < i →
      best = colorDistanceSqInt px (palette.getD bi default) →
      (∀ m, m < i → best ≤ colorDistanceSqInt px (palette.getD m default)) →
      (∀ m, m < bi → best < colorDistanceSqInt px (palette.getD m default)) →
      bestScan px rest i bi best < palette.length ∧
      (∀ m, m < palette.length →
        colorDistanceSqInt px (palette.getD (bestScan px rest i bi best) default) ≤
          colorDistanceSqInt px (palette.getD m default)) ∧
      (∀ m, m < bestScan px rest i bi best →
        colorDistanceSqInt px (palette.getD (bestScan px rest i bi best) default) <
          colorDistanceSqInt px (palette.getD m default))
  | [], i, bi, best, hdrop, hi, hbi, hbest, hmin, htie => by
    have hlen : palette.length = i := by
      have := List.drop_eq_nil_iff.mp hdrop
      omega
    have hres : bestScan px [] i bi best = bi := rfl
    rw [hres]
    refine ⟨by omega, ?_, ?_⟩
    · intro m hm
      rw [← hbest]
      exact hmin m (by omega)
    · intro m hm
      rw [← hbest]
      exact htie m hm
  | c :: rest2, i, bi, best, hdrop, hi, hbi, hbest, hmin, htie => by
    have hilt : i < palette.length := by
      by_contra hcon
      have : palette.drop i = [] := List.drop_eq_nil_iff.mpr (by omega)
      rw [this] at hdrop
      cases hdrop
    have hsplit := List.getElem_cons_drop palette i hilt
    rw [hdrop] at hsplit
    have hc : c = palette[i] := by
      have := hsplit.symm
      injection this with h1 _
    have hrest2 : palette.drop (i + 1) = rest2 := by
      injection hsplit.symm with _ h2
      exact h2.symm
    have hgd : palette.getD i default = c := by
      rw [List.getD_eq_getElem _ _ hilt, hc]
    simp only [bestScan]
    by_cases hd : colorDistanceSqInt px c < best
    · rw [if_pos hd]
      exact bestScan_spec px palette rest2 (i + 1) i _ hrest2 (by omega)
        (by omega) (by rw [hgd])
        (by
          intro m hm
          rcases Nat.lt_succ_iff_lt_or_eq.mp hm with h | h
          · have := hmin m h
            omega
          · subst h
            rw [hgd])
        (by
          intro m hm
          have := hmin m hm
          omega)
    · rw [if_neg hd]
      exact bestScan_spec px palette rest2 (i + 1) bi best hrest2 (by omega)
        (by omega) hbest
        (by
          intro m hm
          rcases Nat.lt_succ_iff_lt_or_eq.mp hm with h | h
          · exact hmin m h
          · subst h
            rw [hgd]
            omega)
        htie

/-- The per-sample classifier picks the smallest palette index achieving
the minimum squared distance. -/
theorem bestIdxOf_spec (px : RGB) (palette : List RGB) (h : palette ≠ []) :
    bestIdxOf px palette < palette.length ∧
    (∀ m, m < palette.length →
      colorDistanceSqInt px (palette.getD (bestIdxOf px palette) default) ≤
        colorDistanceSqInt px (palette.getD m default)) ∧
    (∀ m, m < bestIdxOf px palette →
      colorDistanceSqInt px (palette.getD (bestIdxOf px palette) default) <
        colorDistanceSqInt px (palette.getD m default)) := by
  match palette, h with
  | c0 :: rest, _ =>
    have := bestScan_spec px (c0 :: rest) rest 1 0
      (colorDistanceSqInt px c0) rfl (by simp [Nat.succ_le_iff]) Nat.one_pos
      (by simp)
      (by
        intro m hm
        have hm0 : m = 0 := by omega
        subst hm0
        simp)
      (by omega)
    simpa [bestIdxOf] using this

theorem bestIdxOf_lt (px : RGB) (palette : List RGB) (h : palette ≠ []) :
    bestIdxOf px palette < palette.length :=
  (bestIdxOf_spec px palette h).1

/-- The internal scan coincides with the src scan once the sentinel is
replaced by a real distance. -/
theorem bestScan_internal_eq (px : RGB) :
    ∀ (rest : List RGB) (i bi : Nat) (b : Int),
      bestScan_internal px rest i bi (some b) = bestScan px rest i bi b
  | [], _, _, _ => rfl
  | c :: rest, i, bi, b => by
    simp only [bestScan_internal, bestScan]
    by_cases hd : colorDistanceSqInt px c < b
    · rw [if_pos hd, if_pos hd, bestScan_internal_eq]
    · rw [if_neg hd, if_neg hd, bestScan_internal_eq]

/-- Both classifiers pick the same index on a non-empty palette. -/
theorem bestIdxOf_internal_eq (px : RGB) (palette : List RGB) (h : palette ≠ []) :
    bestIdxOf_internal px palette = bestIdxOf px palette := by
  match palette, h with
  | c0 :: rest, _ =>
    simp only [bestIdxOf_internal, bestIdxOf, bestScan_internal]
    exact bestScan_internal_eq px rest 1 0 _

theorem classify_foldl_length (palette : List RGB) :
    ∀ (pixels : List RGB) (acc : List Nat),
      (pixels.foldl (fun cnt px => incrAt cnt (bestIdxOf px palette)) acc).length
        = acc.length
  | [], _ => rfl
  | px :: rest, acc => by
    simp only [List.foldl_cons]
    rw [classify_foldl_length palette rest _, length_incrAt]

theorem classify_length (palette pixels : List RGB) :
    (classifyChunk palette pixels).length = palette.length := by
  unfold classifyChunk
  rw [classify_foldl_length, List.length_replicate]

/-- Classification from any starting histogram is classification from zero
merged on top of the start. -/
theorem classify_foldl_merge (palette : List RGB) :
    ∀ (pixels : List RGB) (acc : List Nat), acc.length = palette.length →
      pixels.foldl (fun cnt px => incrAt cnt (bestIdxOf px palette)) acc =
        mergeCounts acc (classifyChunk palette pixels)
  | [], acc, h => by
    simp only [List.foldl_nil, classifyChunk]
    rw [← h]
    exact (mergeCounts_zeros_right acc).symm
  | px :: rest, acc, h => by
    simp only [List.foldl_cons, classifyChunk, List.length_replicate]
    rw [classify_foldl_merge palette rest (incrAt acc _)
      (by rw [length_incrAt]; exact h)]
    rw [classify_foldl_merge palette rest (incrAt (List.replicate palette.length 0) _)
      (by rw [length_incrAt, List.length_replicate])]
    rw [mergeCounts_incr_left, mergeCounts_incr_left]
    rw [show mergeCounts (List.replicate palette.length 0) (classifyChunk palette rest)
        = classifyChunk palette rest from by
      conv_lhs => rw [← classify_length palette rest]
      exact mergeCounts_zeros_left _]
    rw [mergeCounts_incr_right]

/-- Folding the per-chunk histograms with element-wise addition equals
classifying the concatenation of the chunks. -/
theorem foldl_merge_chunks (palette : List RGB) :
    ∀ (chunks : List (List RGB)) (acc : List Nat), acc.length = palette.length →
      (chunks.map (classifyChunk palette)).foldl mergeCounts acc =
        chunks.flatten.foldl (fun cnt px => incrAt cnt (bestIdxOf px palette)) acc
  | [], _, _ => rfl
  | c :: rest, acc, h => by
    simp only [List.map_cons, List.foldl_cons, List.flatten_cons, List.foldl_append]
    rw [foldl_merge_chunks palette rest (mergeCounts acc (classifyChunk palette c))
      (by rw [mergeCounts_length, classify_length]; omega)]
    rw [classify_foldl_merge palette c acc h]

theorem chunksOf_flatten (step : Nat) (l : List RGB) :
    (chunksOf step l).flatten = l := by
  rw [chunksOf]
  by_cases h1 : l = []
  · rw [if_pos h1, h1]
    rfl
  · rw [if_neg h1]
    by_cases h2 : step = 0
    · rw [if_pos h2]
      simp
    · rw [if_neg h2]
      simp only [List.flatten_cons]
      rw [chunksOf_flatten step (l.drop step)]
      exact List.take_append_drop step l
termination_by l.length
decreasing_by
  simp only [List.length_drop]
  have : 0 < l.length := List.length_pos.mpr h1
  omega

/-- The src classifier is independent of the injected worker count: the
parallel path merges to exactly the sequential histogram. -/
theorem countOccurrences_workers_irrelevant (workers : Nat)
    (pixels palette : List RGB) :
    CountOccurrences workers pixels palette = CountOccurrences 1 pixels palette := by
  unfold CountOccurrences
  by_cases h1 : palette.length = 0 ∨ pixels.length = 0
  · rw [if_pos h1, if_pos h1]
  · rw [if_neg h1, if_neg h1]
    by_cases h2 : workers < 2 ∨ pixels.length < 5000
    · rw [if_pos h2, if_pos (Or.inl (by omega : (1 : Nat) < 2))]
    · rw [if_neg h2, if_pos (Or.inl (by omega : (1 : Nat) < 2))]
      rw [foldl_merge_chunks palette _ _ (List.length_replicate _ _)]
      rw [chunksOf_flatten]
      rfl

/-- Histogram sums count exactly the consumed samples. -/
theorem classify_foldl_sum (palette : List RGB) (h : palette ≠ []) :
    ∀ (pixels : List RGB) (acc : List Nat), acc.length = palette.length →
      (pixels.foldl (fun cnt px => incrAt cnt (bestIdxOf px palette)) acc).sum =
        acc.sum + pixels.length
  | [], _, _ => by simp
  | px :: rest, acc, hl => by
    simp only [List.foldl_cons]
    rw [classify_foldl_sum palette h rest (incrAt acc _)
      (by rw [length_incrAt]; exact hl)]
    rw [sum_incrAt acc _ (by rw [hl]; exact bestIdxOf_lt px palette h)]
    simp only [List.length_cons]
    omega

theorem classify_sum (palette pixels : List RGB) (h : palette ≠ []) :
    (classifyChunk palette pixels).sum = pixels.length := by
  unfold classifyChunk
  rw [classify_foldl_sum palette h pixels _ (List.length_replicate _ _)]
  simp

/-- With a non-empty palette the internal classifier never panics and
computes the sequential histogram of the src classifier. -/
theorem countOccurrences_internal_eq_aux (palette : List RGB) (h : palette ≠ []) :
    ∀ (pixels : List RGB) (acc : List Nat), acc.length = palette.length →
      pixels.foldlM
        (fun cnt px =>
          let bi := bestIdxOf_internal px palette
          if bi < cnt.length then some (incrAt cnt bi) else none) acc =
      some (pixels.foldl (fun cnt px => incrAt cnt (bestIdxOf px palette)) acc)
  | [], acc, _ => rfl
  | px :: rest, acc, hl => by
    simp only [List.foldlM_cons, List.foldl_cons]
    rw [bestIdxOf_internal_eq px palette h]
    rw [if_pos (by rw [hl]; exact bestIdxOf_lt px palette h)]
    simp only [Option.bind_eq_bind, Option.some_bind]
    exact countOccurrences_internal_eq_aux palette h rest (incrAt acc _)
      (by rw [length_incrAt]; exact hl)

theorem countOccurrences_internal_eq (pixels palette : List RGB) (h : palette ≠ []) :
    CountOccurrences_internal pixels palette = some (classifyChunk palette pixels) := by
  unfold CountOccurrences_internal classifyChunk
  exact countOccurrences_internal_eq_aux palette h pixels _ (List.length_replicate _ _)

theorem countOccurrences_sum_src (workers : Nat) (pixels palette : List RGB)
    (h : palette ≠ []) :
    (CountOccurrences workers pixels palette).sum = pixels.length := by
  rw [countOccurrences_workers_irrelevant]
  unfold CountOccurrences
  by_cases h1 : palette.length = 0 ∨ pixels.length = 0
  · rw [if_pos h1]
    rcases h1 with h1 | h1
    · exact absurd (List.length_eq_zero.mp h1) h
    · simp [h1]
  · rw [if_neg h1, if_pos (Or.inl (by omega))]
    exact classify_sum palette pixels h

/-! ## Auxiliary lemmas: medians and means -/

/-- Every entry of the sorted copy of a channel buffer is one of its
values. -/
theorem sortBy_getD_mem (le : Nat → Nat → Bool) (l : List Nat) (i : Nat)
    (h : i < l.length) : (sortBy le l).getD i 0 ∈ l := by
  have hlen : i < (sortBy le l).length := by rw [sortBy_length]; exact h
  rw [List.getD_eq_getElem _ _ hlen]
  exact (sortBy_perm le l).mem_iff.mp (List.getElem_mem hlen)

/-- The internal (sort-based) box reduction computes exactly the
spec-side per-channel median on 8-bit inputs. -/
theorem medianColor_internal_eq_spec (pxs : List RGB) (h : pxs ≠ [])
    (hv : ∀ c ∈ pxs, ValidRGB c) :
    medianColor_internal pxs = specMedianColor pxs := by
  have hbound : ∀ (f : RGB → Nat), (∀ c ∈ pxs, f c < 256) →
      ∀ i, i < pxs.length → (sortBy (· ≤ ·) (pxs.map f)).getD i 0 < 256 := by
    intro f hf i hi
    have hmem := sortBy_getD_mem (· ≤ ·) (pxs.map f) i (by simpa using hi)
    obtain ⟨c, hc, heq⟩ := List.mem_map.mp hmem
    rw [← heq]
    exact hf c hc
  have hR : ∀ i, i < pxs.length → (sortBy (· ≤ ·) (pxs.map RGB.R)).getD i 0 < 256 :=
    hbound RGB.R (fun c hc => (hv c hc).1)
  have hG : ∀ i, i < pxs.length → (sortBy (· ≤ ·) (pxs.map RGB.G)).getD i 0 < 256 :=
    hbound RGB.G (fun c hc => (hv c hc).2.1)
  have hB : ∀ i, i < pxs.length → (sortBy (· ≤ ·) (pxs.map RGB.B)).getD i 0 < 256 :=
    hbound RGB.B (fun c hc => (hv c hc).2.2)
  have hn : 0 < pxs.length := List.length_pos.mpr h
  unfold medianColor_internal specMedianColor specMedianChannel
  rw [if_neg h]
  simp only [List.length_map]
  by_cases hodd : pxs.length % 2 = 1
  · rw [if_pos hodd, if_pos hodd, if_pos hodd, if_pos hodd]
    have hmid : pxs.length / 2 < pxs.length := by omega
    unfold u8
    rw [Nat.mod_eq_of_lt (hR _ hmid), Nat.mod_eq_of_lt (hG _ hmid),
      Nat.mod_eq_of_lt (hB _ hmid)]
  · rw [if_neg hodd, if_neg hodd, if_neg hodd, if_neg hodd]
    have hmid : pxs.length / 2 < pxs.length := by omega
    have hmid1 : pxs.length / 2 - 1 < pxs.length := by omega
    unfold u8
    rw [Nat.mod_eq_of_lt (by have := hR _ hmid; have := hR _ hmid1; omega),
      Nat.mod_eq_of_lt (by have := hG _ hmid; have := hG _ hmid1; omega),
      Nat.mod_eq_of_lt (by have := hB _ hmid; have := hB _ hmid1; omega)]

/-- Channel sums of 8-bit values are bounded by `255 * n`. -/
theorem foldl_add_le (f : RGB → Nat) :
    ∀ (pxs : List RGB) (acc : Nat), (∀ c ∈ pxs, f c < 256) →
      pxs.foldl (fun s p => s + f p) acc ≤ acc + 255 * pxs.length
  | [], _, _ => by simp
  | c :: rest, acc, hv => by
    simp only [List.foldl_cons, List.length_cons]
    have h1 : f c ≤ 255 := by
      have := hv c (by simp)
      omega
    have h2 := foldl_add_le f rest (acc + f c)
      (fun x hx => hv x (by simp [hx]))
    omega

/-- `averageColor` equals the spec-side rounded mean on 8-bit inputs
(the `uint8` conversion cannot truncate). -/
theorem averageColor_eq_spec (pxs : List RGB) (h : pxs ≠ [])
    (hv : ∀ c ∈ pxs, ValidRGB c) : averageColor pxs = specMeanColor pxs := by
  have hn : 0 < pxs.length := List.length_pos.mpr h
  have hdiv : ∀ s : Nat, s ≤ 255 * pxs.length →
      (2 * s + pxs.length) / (2 * pxs.length) < 256 := by
    intro s hs
    rw [Nat.div_lt_iff_lt_mul (by omega)]
    omega
  have hr : sumR pxs ≤ 255 * pxs.length := by
    have := foldl_add_le RGB.R pxs 0 (fun c hc => (hv c hc).1)
    unfold sumR
    omega
  have hg : sumG pxs ≤ 255 * pxs.length := by
    have := foldl_add_le RGB.G pxs 0 (fun c hc => (hv c hc).2.1)
    unfold sumG
    omega
  have hb : sumB pxs ≤ 255 * pxs.length := by
    have := foldl_add_le RGB.B pxs 0 (fun c hc => (hv c hc).2.2)
    unfold sumB
    omega
  simp only [averageColor, specMeanColor, u8, if_neg h]
  rw [Nat.mod_eq_of_lt (hdiv _ hr), Nat.mod_eq_of_lt (hdiv _ hg),
    Nat.mod_eq_of_lt (hdiv _ hb)]

/-- src `MedianCutPalette` at `k = 1` returns the rounded mean (and the
caller's buffer untouched). -/
theorem medianCutPalette_k1 (pixels : List RGB) (h : pixels ≠ [])
    (hv : ∀ c ∈ pixels, ValidRGB c) :
    MedianCutPalette pixels 1 = some ([specMeanColor pixels], pixels) := by
  unfold MedianCutPalette
  rw [if_neg (by omega : ¬(1 : Int) ≤ 0), if_pos rfl,
    averageColor_eq_spec pixels h hv]

/-- internal `MedianCutPalette` at `k = 1` returns the per-channel median
(not the mean), with the caller's buffer untouched. -/
theorem medianCutPalette_internal_k1 (pixels : List RGB) :
    MedianCutPalette_internal pixels 1 =
      some ([medianColor_internal pixels], pixels) := by
  unfold MedianCutPalette_internal
  rw [if_neg (by omega : ¬(1 : Int) ≤ 0),
    if_neg (fun hcon => absurd hcon.1 (by omega))]
  unfold padTo_internal
  simp

theorem medianCutSplit_internal_third (pxs : List RGB) :
    (medianCutSplit_internal pxs).2.2 =
      sortBy (fun a b =>
        channelValue a (dominantChannel pxs) ≤ channelValue b (dominantChannel pxs))
        pxs := rfl

/-- Both `MedianCutPalette`s leave a permutation of the original samples
in the caller's buffer whenever they return. -/
theorem medianCutPalette_buf_perm_src (pixels : List RGB) (k : Int)
    (pal buf : List RGB) (h : MedianCutPalette pixels k = some (pal, buf)) :
    buf.Perm pixels := by
  unfold MedianCutPalette at h
  by_cases h1 : k ≤ 0
  · rw [if_pos h1] at h
    simp only [Option.some.injEq, Prod.mk.injEq] at h
    rw [← h.2]
  · rw [if_neg h1] at h
    by_cases h2 : k = 1
    · rw [if_pos h2] at h
      simp only [Option.some.injEq, Prod.mk.injEq] at h
      rw [← h.2]
    · rw [if_neg h2] at h
      by_cases h3 : (pixels.length : Int) ≤ k
      · rw [if_pos h3] at h
        obtain ⟨res, _, hres⟩ := Option.map_eq_some'.mp h
        simp only [Prod.mk.injEq] at hres
        rw [← hres.2]
      · rw [if_neg h3] at h
        obtain ⟨l, r, m, hsplit, hperm⟩ := medianCutSplit_total pixels
        simp only [hsplit] at h
        cases hloop : mcLoop k.toNat k.toNat [l, r] with
        | none => simp [hloop] at h
        | some boxes =>
          simp only [hloop] at h
          cases hred : reduceBoxes boxes with
          | none => simp [hred] at h
          | some palette2 =>
            simp only [hred] at h
            obtain ⟨res, _, hres⟩ := Option.map_eq_some'.mp h
            simp only [Prod.mk.injEq] at hres
            rw [← hres.2]
            exact hperm

theorem medianCutPalette_buf_perm_internal (pixels : List RGB) (k : Int)
    (pal buf : List RGB)
    (h : MedianCutPalette_internal pixels k = some (pal, buf)) :
    buf.Perm pixels := by
  unfold MedianCutPalette_internal at h
  by_cases h1 : k ≤ 0
  · rw [if_pos h1] at h
    simp only [Option.some.injEq, Prod.mk.injEq] at h
    rw [← h.2]
  · rw [if_neg h1] at h
    by_cases h2 : 1 < k ∧ 2 ≤ pixels.length
    · rw [if_pos h2] at h
      cases hloop : mcLoop_internal k.toNat k.toNat
          [(medianCutSplit_internal pixels).1,
           (medianCutSplit_internal pixels).2.1] with
      | none => simp [hloop] at h
      | some boxes =>
        simp only [hloop] at h
        simp only [Option.some.injEq, Prod.mk.injEq] at h
        rw [← h.2, medianCutSplit_internal_third]
        exact sortBy_perm _ pixels
    · rw [if_neg h2] at h
      simp only [Option.some.injEq, Prod.mk.injEq] at h
      rw [← h.2]

/-! ## Claims -/

/-- C1: the claim says `BuildPalette` returns a palette of length exactly
`k` for every sample sequence (including the empty one) and `k ≥ 1`, never
raising.  The src `MedianCutPalette` violates it: on the empty sequence
with `k = 2` its padding loop evaluates `result[len(result)-1]` on an
empty slice and panics (modelled as `none`), while the internal
implementation returns the length-2 palette the claim demands; on other
degenerate inputs src behaves as claimed. -/
theorem C1_buildPalette_empty_panics :
    MedianCutPalette [] 2 = none ∧
    (MedianCutPalette_internal [] 2).map (fun r => r.1.length) = some 2 ∧
    (MedianCutPalette [⟨5, 5, 5⟩] 3).map (fun r => r.1.length) = some 3 ∧
    MedianCutPalette [] 0 = some ([], []) ∧
    MedianCutPalette [] 1 = some ([⟨0, 0, 0⟩], []) := by decide

/-- C2: for every worker count, sample sequence and non-empty palette, the
histogram of src `CountOccurrences` sums to the number of samples, and the
internal `CountOccurrences` returns a histogram with the same sum. -/
theorem C2_histogram_sum (workers : Nat) (pixels palette : List RGB)
    (h : palette ≠ []) :
    (CountOccurrences workers pixels palette).sum = pixels.length ∧
    ∃ cnts, CountOccurrences_internal pixels palette = some cnts ∧
      cnts.sum = pixels.length := by
  refine ⟨countOccurrences_sum_src workers pixels palette h, ?_⟩
  exact ⟨classifyChunk palette pixels,
    countOccurrences_internal_eq pixels palette h,
    classify_sum palette pixels h⟩

theorem C2_histogram_sum_witness :
    (CountOccurrences 8 [⟨0, 0, 0⟩, ⟨250, 1, 2⟩, ⟨9, 9, 9⟩]
      [⟨0, 0, 0⟩, ⟨255, 0, 0⟩]).sum = 3 :=
  (C2_histogram_sum 8 [⟨0, 0, 0⟩, ⟨250, 1, 2⟩, ⟨9, 9, 9⟩]
    [⟨0, 0, 0⟩, ⟨255, 0, 0⟩] (by decide)).1

/-- C3: the claim says `ClassifySamples` returns a histogram of the
palette's length without raising, all zeros for empty samples and `[]` for
an empty palette.  src `CountOccurrences` does exactly that, but the
internal `CountOccurrences` panics (`counts[0]++` on an empty `counts`,
modelled as `none`) whenever the palette is empty and the samples are not
— the degenerate case the claim declares error-free. -/
theorem C3_classify_empty_palette_panics :
    CountOccurrences_internal [⟨1, 2, 3⟩] [] = none ∧
    CountOccurrences 1 [⟨1, 2, 3⟩] [] = [] ∧
    CountOccurrences 1 [] [⟨1, 2, 3⟩, ⟨4, 5, 6⟩] = [0, 0] ∧
    CountOccurrences_internal [] [] = some [] ∧
    (CountOccurrences 2 [⟨1, 2, 3⟩] [⟨0, 0, 0⟩, ⟨9, 9, 9⟩]).length = 2 := by
  decide

/-- C4: for every non-empty palette, the element-wise sum of the per-chunk
histograms over any decomposition of the samples into contiguous chunks
equals the sequential histogram, and consequently src `CountOccurrences`
returns the same result for every injected worker count. -/
theorem C4_chunk_merge_equals_sequential (palette : List RGB) (h : palette ≠ []) :
    (∀ (chunks : List (List RGB)) (pixels : List RGB), chunks.flatten = pixels →
      (chunks.map (classifyChunk palette)).foldl mergeCounts
        (List.replicate palette.length 0) = classifyChunk palette pixels) ∧
    (∀ (workers : Nat) (pixels : List RGB),
      CountOccurrences workers pixels palette =
        CountOccurrences 1 pixels palette) := by
  constructor
  · intro chunks pixels hflat
    rw [foldl_merge_chunks palette chunks _ (List.length_replicate _ _), hflat]
    rfl
  · intro workers pixels
    exact countOccurrences_workers_irrelevant workers pixels palette

theorem C4_chunk_merge_equals_sequential_witness :
    ([[⟨0, 0, 0⟩], [⟨200, 0, 0⟩, ⟨3, 3, 3⟩]].map
        (classifyChunk [⟨0, 0, 0⟩, ⟨255, 0, 0⟩])).foldl mergeCounts
      (List.replicate 2 0) =
    classifyChunk [⟨0, 0, 0⟩, ⟨255, 0, 0⟩] [⟨0, 0, 0⟩, ⟨200, 0, 0⟩, ⟨3, 3, 3⟩] :=
  (C4_chunk_merge_equals_sequential [⟨0, 0, 0⟩, ⟨255, 0, 0⟩] (by decide)).1
    [[⟨0, 0, 0⟩], [⟨200, 0, 0⟩, ⟨3, 3, 3⟩]] _ rfl

/-- C5: the claim says the quickselect routine puts the true `r`-th
smallest value at rank `r` with a `≤`/`≥` partition around it.  It fails:
on `[2,3,0,0]` with rank 1 the early `k == p` return fires at a position
that does not hold the pivot, yielding 2 (the true 1st-smallest is 0,
`sortBy` shows the sorted buffer) and leaving a smaller element after
index 1 in the final buffer `[0,2,0,3]`. -/
theorem C5_quickselect_wrong_rank :
    quickSelectUint8 [2, 3, 0, 0] 1 = some ([0, 2, 0, 3], 2) ∧
    sortBy (· ≤ ·) [2, 3, 0, 0] = [0, 0, 2, 3] ∧
    ([0, 0, 2, 3] : List Nat).getD 1 0 = 0 ∧ (2 : Nat) ≠ 0 ∧
    ([0, 2, 0, 3] : List Nat).getD 2 0 < ([0, 2, 0, 3] : List Nat).getD 1 0 := by
  decide

/-- C6: for every sample and non-empty palette the classifier's chosen
bucket is the smallest palette index achieving the minimum integer squared
Euclidean distance (strict `<` scan keeps the first minimum), each sample
increments exactly that bucket, and the internal classifier (float
distances are exact on these integers) picks the same index. -/
theorem C6_classifier_argmin (px : RGB) (palette : List RGB) (h : palette ≠ []) :
    bestIdxOf px palette < palette.length ∧
    (∀ m, m < palette.length →
      colorDistanceSqInt px (palette.getD (bestIdxOf px palette) default) ≤
        colorDistanceSqInt px (palette.getD m default)) ∧
    (∀ m, m < bestIdxOf px palette →
      colorDistanceSqInt px (palette.getD (bestIdxOf px palette) default) <
        colorDistanceSqInt px (palette.getD m default)) ∧
    (∀ pixels : List RGB, classifyChunk palette (pixels ++ [px]) =
      incrAt (classifyChunk palette pixels) (bestIdxOf px palette)) ∧
    bestIdxOf_internal px palette = bestIdxOf px palette := by
  obtain ⟨h1, h2, h3⟩ := bestIdxOf_spec px palette h
  refine ⟨h1, h2, h3, ?_, bestIdxOf_internal_eq px palette h⟩
  intro pixels
  unfold classifyChunk
  rw [List.foldl_append]
  rfl

theorem C6_classifier_argmin_witness :
    bestIdxOf ⟨100, 0, 0⟩ [⟨0, 0, 0⟩, ⟨90, 0, 0⟩, ⟨110, 0, 0⟩] < 3 ∧
    bestIdxOf_internal ⟨100, 0, 0⟩ [⟨0, 0, 0⟩, ⟨90, 0, 0⟩, ⟨110, 0, 0⟩] =
      bestIdxOf ⟨100, 0, 0⟩ [⟨0, 0, 0⟩, ⟨90, 0, 0⟩, ⟨110, 0, 0⟩] :=
  ⟨(C6_classifier_argmin ⟨100, 0, 0⟩ _ (by decide)).1,
   (C6_classifier_argmin ⟨100, 0, 0⟩ _ (by decide)).2.2.2.2⟩

/-- C7 counterexample: the claim says every box's representative equals
the per-channel median (even size: rounded average of the two middle
values).  src `medianColor` on the box `[(0,0,0),(3,0,0)]` returns the
truncated mean `(1,0,0)`, not the spec median `(2,0,0)`; the final
conjunct shows a full `MedianCutPalette` run in which that box reaches
reduction and the palette carries the non-median entry. -/
theorem C7_median_counterexample :
    medianColor [⟨0, 0, 0⟩, ⟨3, 0, 0⟩] = some ⟨1, 0, 0⟩ ∧
    specMedianColor [⟨0, 0, 0⟩, ⟨3, 0, 0⟩] = ⟨2, 0, 0⟩ ∧
    medianColor [⟨0, 0, 0⟩, ⟨3, 0, 0⟩] ≠
      some (specMedianColor [⟨0, 0, 0⟩, ⟨3, 0, 0⟩]) ∧
    (MedianCutPalette
        [⟨0, 0, 0⟩, ⟨3, 0, 0⟩, ⟨255, 0, 0⟩, ⟨254, 0, 0⟩, ⟨253, 0, 0⟩] 2).map
      Prod.fst = some [⟨1, 0, 0⟩, ⟨254, 0, 0⟩] := by decide

/-- C7 amended: the internal (sort-based) `medianColor` computes exactly
the claimed per-channel median — odd size: middle of the sorted channel;
even size: average of the two middle values rounded half away from zero —
for every non-empty box of 8-bit colors. -/
theorem C7_internal_median_is_spec_median (pxs : List RGB) (h : pxs ≠ [])
    (hv : ∀ c ∈ pxs, ValidRGB c) :
    medianColor_internal pxs = specMedianColor pxs :=
  medianColor_internal_eq_spec pxs h hv

theorem C7_internal_median_is_spec_median_witness :
    medianColor_internal [⟨0, 0, 0⟩, ⟨3, 0, 0⟩] =
      specMedianColor [⟨0, 0, 0⟩, ⟨3, 0, 0⟩] :=
  C7_internal_median_is_spec_median [⟨0, 0, 0⟩, ⟨3, 0, 0⟩] (by decide) (by decide)

/-- C8 counterexample: the claim says `BuildPalette(samples, 1)` returns
the rounded per-channel mean.  The internal `MedianCutPalette` has no
`k = 1` mean case: on `[(0,0,0),(0,0,0),(9,0,0)]` it returns the median
`(0,0,0)`, not the mean `(3,0,0)`. -/
theorem C8_internal_k1_not_mean :
    (MedianCutPalette_internal [⟨0, 0, 0⟩, ⟨0, 0, 0⟩, ⟨9, 0, 0⟩] 1).map Prod.fst =
      some [⟨0, 0, 0⟩] ∧
    specMeanColor [⟨0, 0, 0⟩, ⟨0, 0, 0⟩, ⟨9, 0, 0⟩] = ⟨3, 0, 0⟩ ∧
    (MedianCutPalette_internal [⟨0, 0, 0⟩, ⟨0, 0, 0⟩, ⟨9, 0, 0⟩] 1).map Prod.fst ≠
      some [specMeanColor [⟨0, 0, 0⟩, ⟨0, 0, 0⟩, ⟨9, 0, 0⟩]] := by decide

/-- C8 amended: src `MedianCutPalette` returns for `k = 1` exactly one
color, the arithmetic mean rounded half away from zero, as claimed (and
leaves the samples untouched); the internal implementation returns the
per-channel median instead, which agrees with the mean on two-sample
inputs such as the claim's `[(0,0,0),(10,0,0)]` instance. -/
theorem C8_src_k1_mean (pixels : List RGB) (h : pixels ≠ [])
    (hv : ∀ c ∈ pixels, ValidRGB c) :
    MedianCutPalette pixels 1 = some ([specMeanColor pixels], pixels) ∧
    MedianCutPalette_internal pixels 1 =
      some ([medianColor_internal pixels], pixels) :=
  ⟨medianCutPalette_k1 pixels h hv, medianCutPalette_internal_k1 pixels⟩

theorem C8_src_k1_mean_witness :
    MedianCutPalette [⟨0, 0, 0⟩, ⟨10, 0, 0⟩] 1 =
      some ([⟨5, 0, 0⟩], [⟨0, 0, 0⟩, ⟨10, 0, 0⟩]) :=
  ((C8_src_k1_mean [⟨0, 0, 0⟩, ⟨10, 0, 0⟩] (by decide) (by decide)).1).trans
    (by decide)

/-- C9 counterexample: the claim says `BuildPalette` leaves the caller's
sample sequence unchanged in order.  src `MedianCutPalette` aliases the
caller's buffer in its first box and the first median-cut split reorders
it in place: on `[(0,0,0),(255,0,0),(1,0,0),(2,0,0)]` with `k = 2` the
buffer ends as `[(0,0,0),(2,0,0),(1,0,0),(255,0,0)]`, a different order. -/
theorem C9_buffer_mutated :
    (MedianCutPalette [⟨0, 0, 0⟩, ⟨255, 0, 0⟩, ⟨1, 0, 0⟩, ⟨2, 0, 0⟩] 2).map
      Prod.snd = some [⟨0, 0, 0⟩, ⟨2, 0, 0⟩, ⟨1, 0, 0⟩, ⟨255, 0, 0⟩] ∧
    ([⟨0, 0, 0⟩, ⟨2, 0, 0⟩, ⟨1, 0, 0⟩, ⟨255, 0, 0⟩] : List RGB) ≠
      [⟨0, 0, 0⟩, ⟨255, 0, 0⟩, ⟨1, 0, 0⟩, ⟨2, 0, 0⟩] := by decide

/-- C9 amended: both `MedianCutPalette`s may reorder the caller's sample
buffer in place (src by quickselect partitioning, internal by sorting),
but whenever they return, the buffer holds a permutation of the original
samples — the same colors with the same multiplicities, no sample added,
dropped or altered. -/
theorem C9_buffer_multiset_preserved (pixels : List RGB) (k : Int)
    (pal buf : List RGB) :
    (MedianCutPalette pixels k = some (pal, buf) → buf.Perm pixels) ∧
    (MedianCutPalette_internal pixels k = some (pal, buf) → buf.Perm pixels) :=
  ⟨medianCutPalette_buf_perm_src pixels k pal buf,
   medianCutPalette_buf_perm_internal pixels k pal buf⟩

theorem C9_buffer_multiset_preserved_witness :
    ([⟨0, 0, 0⟩, ⟨2, 0, 0⟩, ⟨1, 0, 0⟩, ⟨255, 0, 0⟩] : List RGB).Perm
      [⟨0, 0, 0⟩, ⟨255, 0, 0⟩, ⟨1, 0, 0⟩, ⟨2, 0, 0⟩] :=
  (C9_buffer_multiset_preserved [⟨0, 0, 0⟩, ⟨255, 0, 0⟩, ⟨1, 0, 0⟩, ⟨2, 0, 0⟩] 2
    [⟨1, 0, 0⟩, ⟨128, 0, 0⟩] [⟨0, 0, 0⟩, ⟨2, 0, 0⟩, ⟨1, 0, 0⟩, ⟨255, 0, 0⟩]).1
    (by decide)

/-- C10: the hand-rolled quickselect loops terminate: with fuel one more
than the buffer length both `quickSelectUint8` (any rank, non-empty
buffer) and `nthElementByChannel` (any input) return `some`, because
every partition call on a window `lo < hi` inside the buffer succeeds and
returns an index inside `[lo, hi]`, so the active window strictly shrinks
and the inner pivot scans stay within bounds. -/
theorem C10_quickselect_terminates :
    (∀ (arr : List Nat) (k : Int), arr ≠ [] → (quickSelectUint8 arr k).isSome) ∧
    (∀ (a : List RGB) (n : Int) (ch : Nat), (nthElementByChannel a n ch).isSome) ∧
    (∀ (a : List RGB) (lo hi ch : Nat), lo < hi → hi < a.length →
      ∃ a2 p, hoarePartition (channelValue · ch) a lo hi = some (a2, p) ∧
        (lo : Int) ≤ p ∧ p ≤ (hi : Int)) := by
  refine ⟨?_, ?_, ?_⟩
  · intro arr k h
    obtain ⟨a2, v, hrec, _⟩ := quickSelectUint8_total arr k h
    rw [hrec]
    rfl
  · intro a n ch
    obtain ⟨a2, hrec, _⟩ := nthElementByChannel_total a n ch
    rw [hrec]
    rfl
  · intro a lo hi ch h1 h2
    obtain ⟨a2, p, hrec, hb1, hb2, _, _⟩ :=
      hoarePartition_total (channelValue · ch) a lo hi h1 h2
    exact ⟨a2, p, hrec, hb1, hb2⟩

theorem C10_quickselect_terminates_witness :
    (quickSelectUint8 [9, 4, 7] 0).isSome ∧
    (nthElementByChannel [⟨1, 2, 3⟩, ⟨9, 9, 9⟩] 1 0).isSome :=
  ⟨C10_quickselect_terminates.1 [9, 4, 7] 0 (by decide),
   C10_quickselect_terminates.2.1 [⟨1, 2, 3⟩, ⟨9, 9, 9⟩] 1 0⟩

end CheckColor
